import Mathlib

/-!
# Verification of the real-time-job-tracker crawl/merge engine

Shallow embedding of the repository's merge engine
(`src/utils/deduplication.py`), of the Google detail extractor and
pagination loop (`src/scrapers/google/scraper.py`), and of the corpus
bookkeeping in `src/main.py`.

Modelling conventions:
* A Python job dictionary is modelled as a `Job` structure whose fields are
  the finitely many keys the program reads or writes; `none` models an
  absent key, `some s` a present string value.
* `datetime.now().isoformat()` is modelled by an explicit `now : String`
  parameter threaded through the merge.
* `hashlib.md5(...).hexdigest()` is an external library digest; it is
  modelled as an arbitrary function parameter `md5 : String → String`
  applied to the exact hash string the code builds, so every theorem
  quantifying over `md5` holds in particular for the real digest.
* Python string truthiness (`if new_job[field]:`) is `truthy`; `str.strip`
  and `str.lower` are the character-list functions `pyStrip` and `pyLower`
  (kept structural so that concrete instances evaluate by `decide`).
-/

/-- One job record: the Python job dict restricted to the keys the program
uses. `none` models an absent key. -/
@[ext]
structure Job where
  id : Option String := none
  title : Option String := none
  company : Option String := none
  location : Option String := none
  url : Option String := none
  description : Option String := none
  posted_date : Option String := none
  salary : Option String := none
  employment_type : Option String := none
  scraped_date : Option String := none
  status : Option String := none
  last_seen : Option String := none
  jobId : Option String := none
  level : Option String := none
  jobDescription : Option String := none
  source : Option String := none
deriving DecidableEq, Repr

/-- Python truthiness of an optional string value: an absent key and the
empty string are falsy. -/
def truthy : Option String → Bool
  | none => false
  | some s => s != ""

/-- Python `str.lower` (and JS `toLowerCase`), character-wise over the
string's character list. -/
def pyLower (s : String) : String := ⟨s.data.map Char.toLower⟩

/-- Python `str.strip()` (and JS `trim()`): drop leading and trailing
whitespace. -/
def pyStrip (s : String) : String :=
  ⟨((s.data.dropWhile Char.isWhitespace).reverse.dropWhile Char.isWhitespace).reverse⟩

/-- Normalization `str(job.get(field, "")).strip().lower()` of a key field. -/
def normalizeField : Option String → String
  | none => ""
  | some s => pyLower (pyStrip s)

/-- The `"|".join(...)` hash string of `generate_job_hash`
(deduplication.py lines 23-31). -/
def hashString (j : Job) : String :=
  String.intercalate "|"
    [normalizeField j.title, normalizeField j.company,
     normalizeField j.location, normalizeField j.url]

/-- Function `generate_job_hash` (deduplication.py lines 12-34): the md5 hex digest
of the normalized key-field string. The digest itself is the parameter
`md5`. -/
def generate_job_hash (md5 : String → String) (j : Job) : String :=
  md5 (hashString j)

/-- Lines 52-54 of deduplication.py: `if not job.get("id"): job["id"] =
generate_job_hash(job)`. -/
def ensureId (md5 : String → String) (j : Job) : Job :=
  if truthy j.id then j else { j with id := some (generate_job_hash md5 j) }

/-- The body of `_update_existing_job` applied to the located record
(deduplication.py lines 98-105): refresh `last_seen`, then overwrite each
of the four updatable fields when the incoming record carries a truthy
value for it. -/
def applyUpdate (now : String) (b : Job) (j : Job) : Job :=
  { j with
    last_seen := some now,
    description := if truthy b.description then b.description else j.description,
    posted_date := if truthy b.posted_date then b.posted_date else j.posted_date,
    salary := if truthy b.salary then b.salary else j.salary,
    employment_type := if truthy b.employment_type then b.employment_type else j.employment_type }

/-- Function `_update_existing_job` (deduplication.py lines 87-107): walk the list,
update the first record whose `id` equals the hash, then stop. -/
def update_existing_job (now : String) (h : String) (b : Job) : List Job → List Job
  | [] => []
  | j :: rest =>
      if j.id = some h then applyUpdate now b j :: rest
      else j :: update_existing_job now h b rest

/-- The `for job in new_jobs` loop of `deduplicate_jobs` (deduplication.py
lines 61-77), with the accumulated job list, known-hash set and
new-job counter as explicit state. -/
def processNew (md5 : String → String) (now : String) :
    List Job → List String → Nat → List Job → List Job × Nat
  | jobs, _, count, [] => (jobs, count)
  | jobs, hashes, count, b :: rest =>
      let h := generate_job_hash md5 b
      let b' := { b with id := some h }
      if h ∈ hashes then
        processNew md5 now (update_existing_job now h b' jobs) hashes count rest
      else
        processNew md5 now
          (jobs ++ [{ b' with scraped_date := some now, status := some "active" }])
          (h :: hashes) (count + 1) rest

/-- Function `deduplicate_jobs` (deduplication.py lines 37-84). The second component
is the internal `new_job_count`; the Python function returns only the list
and `main.py` recomputes the count as a length difference (proved equal in
the monotonicity theorem). -/
def deduplicate_jobs (md5 : String → String) (now : String)
    (existing_jobs new_jobs : List Job) : List Job × Nat :=
  let existing' := existing_jobs.map (ensureId md5)
  let existing_hashes := existing'.filterMap (fun j => j.id)
  processNew md5 now existing' existing_hashes 0 new_jobs

/-! ## Google scraper: detail extractor (scraper.py) -/

/-- One DOM element of the detail pane, as the extractor sees it: its
uppercase tag name, its text content, and (for a `UL`) the text contents of
its `li` descendants in document order. The pane is modelled as the flat
sequence of sibling elements the extractor walks. -/
structure Elem where
  tag : String
  text : String
  liTexts : List String
deriving DecidableEq, Repr

/-- Test `heading_text.lower() in h3_text.lower()`: case-insensitive substring
test (scraper.py line 529). -/
def containsCI (needle hay : String) : Bool :=
  decide (List.IsInfix (pyLower needle).data (pyLower hay).data)

/-- The loop over `page.query_selector_all('h3')` (scraper.py lines
523-531): find the first `H3` whose text contains the label, returning the
sibling elements that follow it. -/
def findHeading (label : String) : List Elem → Option (List Elem)
  | [] => none
  | e :: rest =>
      if e.tag == "H3" && containsCI label e.text then some rest
      else findHeading label rest

/-- Function `_extract_section_content` (scraper.py lines 511-559): only when the
heading's immediate next sibling is a `UL` are the `li` texts collected
(joined with `"\n"`); any other sibling, or a missing heading, yields
the empty string. -/
def extract_section_content (label : String) (doc : List Elem) : String :=
  match findHeading label doc with
  | none => ""
  | some rest =>
      match rest with
      | [] => ""
      | sib :: _ =>
          if sib.tag == "UL" then
            String.intercalate "\n" (sib.liTexts.map pyStrip)
          else ""

/-- The sibling walk of `_extract_paragraph_content` (scraper.py lines
587-599): collect `P` texts, stopping at the next `H3`. -/
def collectParagraphs : List Elem → List String
  | [] => []
  | e :: rest =>
      if e.tag == "H3" then []
      else if e.tag == "P" then pyStrip e.text :: collectParagraphs rest
      else collectParagraphs rest

/-- Function `_extract_paragraph_content` (scraper.py lines 561-605). -/
def extract_paragraph_content (label : String) (doc : List Elem) : String :=
  match findHeading label doc with
  | none => ""
  | some rest => String.intercalate "\n\n" (collectParagraphs rest)

/-- Function `_extract_job_description` (scraper.py lines 472-509): the fixed label
order, with `_extract_section_content` for the two qualification sections
and Responsibilities and `_extract_paragraph_content` only for
"About the job"; non-empty sections contribute `label:`, content, and a
separating empty line (none after Responsibilities), joined with `"\n"`. -/
def extract_job_description (doc : List Elem) : String :=
  let minQ := extract_section_content "Minimum qualifications" doc
  let prefQ := extract_section_content "Preferred qualifications" doc
  let about := extract_paragraph_content "About the job" doc
  let resp := extract_section_content "Responsibilities" doc
  let p1 := if minQ != "" then ["Minimum qualifications:", minQ, ""] else []
  let p2 := if prefQ != "" then ["Preferred qualifications:", prefQ, ""] else []
  let p3 := if about != "" then ["About the job:", about, ""] else []
  let p4 := if resp != "" then ["Responsibilities:", resp] else []
  String.intercalate "\n" (p1 ++ p2 ++ p3 ++ p4)

/-- One-pass accumulator scan for `digitRuns`: `acc` holds the digits of
the current run, reversed. -/
def digitRunsAux (acc : List Char) : List Char → List (List Char)
  | [] => if acc.isEmpty then [] else [acc.reverse]
  | c :: rest =>
      if c.isDigit then digitRunsAux (c :: acc) rest
      else if acc.isEmpty then digitRunsAux [] rest
      else acc.reverse :: digitRunsAux [] rest

/-- Maximal runs of consecutive digits of a character list, in order. -/
def digitRuns (l : List Char) : List (List Char) :=
  digitRunsAux [] l

/-- Search `re.search(r'\d{5,}', current_url)` (scraper.py line 430): the first
run of 5 or more consecutive digits, if any. -/
def extractJobId (url : String) : Option String :=
  ((digitRuns url.data).find? (fun r => decide (5 ≤ r.length))).map List.asString

/-- The loaded detail view as the extractor queries it: the page url, the
text of the `h2.p1N2lc` title element (`none` when absent), the texts of
the `.r0wTof` location elements, the text of the `.wVSTAb` level element,
and the sibling sequence holding the description headings. -/
structure DetailPage where
  url : String
  titleText : Option String
  locationTexts : List String
  levelText : Option String
  sections : List Elem
deriving DecidableEq, Repr

/-- Function `_extract_job_data` (scraper.py lines 414-470): the job dict literal of
lines 453-464. Keys the extractor never writes (`description`,
`posted_date`, `salary`, `employment_type`, `id`, `last_seen`) are absent. -/
def extract_job_data (now : String) (pg : DetailPage) : Job :=
  { jobId := extractJobId pg.url,
    title := some (pyStrip (pg.titleText.getD "")),
    company := some "Google",
    location := some (String.intercalate "; " (pg.locationTexts.map pyStrip)),
    level := some (pyStrip (pg.levelText.getD "")),
    jobDescription := some (extract_job_description pg.sections),
    url := some pg.url,
    scraped_date := some now,
    source := some "google_career",
    status := some "active" }

/-! ## Google scraper: pagination loop (scraper.py lines 117-148) -/

/-- The `while page_number <= max_pages` loop of
`_start_multi_page_scraping`, returning the page numbers scraped in order.
`hasNext p` is the outcome of `_goto_next_page` on page `p` (its
`try/except` returns `False` on any failure, so a missing "next"
affordance is a normal `false`, never an exception). `fuel` is a structural
recursion bound; the pagination-termination theorem shows the loop's
result is already stable at fuel `max_pages + 1 - page`. -/
def runPages (hasNext : Nat → Bool) (maxPages : Nat) : Nat → Nat → List Nat
  | 0, _ => []
  | fuel + 1, page =>
      if page ≤ maxPages then
        page :: (if hasNext page then runPages hasNext maxPages fuel (page + 1) else [])
      else []

/-! ## Characterization machinery for the merge engine

`processNew` is characterized positionally: each record of the accumulated
list is only ever touched by the incoming records whose fingerprint equals
its `id` (and only if it is the first record carrying that `id`), and the
appended records are exactly the first occurrences of fingerprints unknown
so far. -/

/-- The record stamped and appended for a genuinely new incoming record
(deduplication.py lines 62-72). -/
def stampNew (md5 : String → String) (now : String) (b : Job) : Job :=
  { b with id := some (generate_job_hash md5 b),
           scraped_date := some now, status := some "active" }

/-- Fold a sequence of incoming records' field updates over one record. -/
def applyTargeted (now : String) (j : Job) (bs : List Job) : Job :=
  bs.foldl (fun r b => applyUpdate now b r) j

/-- The incoming records of `bs` that update the record at a given
position: none unless the record has an `id` not already seen at an
earlier position, in which case all of `bs` with that fingerprint. -/
def targetsFor (md5 : String → String) (seenIds : List (Option String))
    (oid : Option String) (bs : List Job) : List Job :=
  match oid with
  | none => []
  | some v =>
      if (some v) ∈ seenIds then []
      else bs.filter (fun b => generate_job_hash md5 b == v)

/-- Positional description of how a merge evolves the records already in
the list: each record receives the updates targeted at its position. -/
def corePart (md5 : String → String) (now : String) (bs : List Job) :
    List (Option String) → List Job → List Job
  | _, [] => []
  | seenIds, j :: rest =>
      applyTargeted now j (targetsFor md5 seenIds j.id bs) ::
        corePart md5 now bs (seenIds ++ [j.id]) rest

/-- The genuinely new records of a batch, in batch order: those whose
fingerprint is neither initially known nor produced by an earlier batch
record. -/
def freshList (md5 : String → String) (hashes : List String) : List Job → List Job
  | [] => []
  | b :: rest =>
      if generate_job_hash md5 b ∈ hashes then freshList md5 hashes rest
      else b :: freshList md5 (generate_job_hash md5 b :: hashes) rest

/-- Positional description of the appended suffix: each genuinely new
record is stamped and then receives the updates of the later batch records
with the same fingerprint. -/
def newPart (md5 : String → String) (now : String) (hashes : List String)
    (bs : List Job) : List Job :=
  (freshList md5 hashes bs).map fun b0 =>
    applyTargeted now (stampNew md5 now b0)
      ((bs.filter (fun b => generate_job_hash md5 b == generate_job_hash md5 b0)).tail)

/-- Full positional description of a merge's resulting job list. -/
def mergeSpec (md5 : String → String) (now : String) (l : List Job)
    (hashes : List String) (bs : List Job) : List Job :=
  corePart md5 now bs [] l ++ newPart md5 now hashes bs

/-- A record with its `last_seen` stamp erased, for comparing merge results
up to `last_seen` refreshes. -/
def clearLastSeen (j : Job) : Job := { j with last_seen := none }

/-- The four immutable identity fields. -/
def idQuad (j : Job) : Option String × Option String × Option String × Option String :=
  (j.title, j.company, j.location, j.url)

/-- Per-field view of `applyTargeted`: the final value of an updatable
field after a sequence of incoming records. -/
def foldUpd (sel : Job → Option String) (bs : List Job) (x : Option String) :
    Option String :=
  bs.foldl (fun x b => if truthy (sel b) then sel b else x) x

/-! ## Basic lemmas about the field update -/

theorem applyUpdate_idArg (t : String) (b j : Job) (x : Option String) :
    applyUpdate t { b with id := x } j = applyUpdate t b j := rfl

theorem gjh_idArg (md5 : String → String) (b : Job) (x : Option String) :
    generate_job_hash md5 { b with id := x } = generate_job_hash md5 b := rfl

theorem gjh_applyUpdate (md5 : String → String) (t : String) (b j : Job) :
    generate_job_hash md5 (applyUpdate t b j) = generate_job_hash md5 j := rfl

theorem gjh_stampNew (md5 : String → String) (t : String) (b : Job) :
    generate_job_hash md5 (stampNew md5 t b) = generate_job_hash md5 b := rfl

theorem gjh_ensureId (md5 : String → String) (j : Job) :
    generate_job_hash md5 (ensureId md5 j) = generate_job_hash md5 j := by
  unfold ensureId; split <;> rfl

theorem idQuad_ensureId (md5 : String → String) (j : Job) :
    idQuad (ensureId md5 j) = idQuad j := by
  unfold ensureId; split <;> rfl

theorem applyTargeted_nil (t : String) (j : Job) : applyTargeted t j [] = j := rfl

theorem applyTargeted_cons (t : String) (j b : Job) (bs : List Job) :
    applyTargeted t j (b :: bs) = applyTargeted t (applyUpdate t b j) bs := rfl

/-- Any field projection left untouched by `applyUpdate` is also untouched
by a whole sequence of updates. -/
theorem applyTargeted_frame {α : Type} (f : Job → α)
    (hf : ∀ t b j, f (applyUpdate t b j) = f j) (t : String) (bs : List Job)
    (j : Job) : f (applyTargeted t j bs) = f j := by
  induction bs generalizing j with
  | nil => rfl
  | cons b bs ih => rw [applyTargeted_cons, ih, hf]

theorem applyTargeted_id (t : String) (bs : List Job) (j : Job) :
    (applyTargeted t j bs).id = j.id :=
  applyTargeted_frame (fun j => j.id) (fun _ _ _ => rfl) t bs j

theorem applyTargeted_idQuad (t : String) (bs : List Job) (j : Job) :
    idQuad (applyTargeted t j bs) = idQuad j :=
  applyTargeted_frame idQuad (fun _ _ _ => rfl) t bs j

theorem gjh_applyTargeted (md5 : String → String) (t : String) (bs : List Job)
    (j : Job) : generate_job_hash md5 (applyTargeted t j bs) = generate_job_hash md5 j :=
  applyTargeted_frame (generate_job_hash md5) (fun _ _ _ => rfl) t bs j

/-! ## Per-field evolution of an updated record -/

theorem foldUpd_nil (sel : Job → Option String) (x : Option String) :
    foldUpd sel [] x = x := rfl

theorem foldUpd_cons (sel : Job → Option String) (b : Job) (bs : List Job)
    (x : Option String) :
    foldUpd sel (b :: bs) x = foldUpd sel bs (if truthy (sel b) then sel b else x) := rfl

theorem foldUpd_of_any (sel : Job → Option String) (bs : List Job)
    (h : bs.any (fun b => truthy (sel b)) = true) (x y : Option String) :
    foldUpd sel bs x = foldUpd sel bs y := by
  induction bs generalizing x y with
  | nil => simp at h
  | cons b bs ih =>
      rw [foldUpd_cons, foldUpd_cons]
      by_cases hb : truthy (sel b) = true
      · simp [hb]
      · simp only [List.any_cons, Bool.or_eq_true] at h
        rcases h with h | h
        · exact absurd h hb
        · exact ih h _ _

theorem foldUpd_of_not_any (sel : Job → Option String) (bs : List Job)
    (h : bs.any (fun b => truthy (sel b)) = false) (x : Option String) :
    foldUpd sel bs x = x := by
  induction bs generalizing x with
  | nil => rfl
  | cons b bs ih =>
      simp only [List.any_cons, Bool.or_eq_false_iff] at h
      rw [foldUpd_cons, if_neg (by simp [h.1]), ih h.2]

/-- Replaying the same update sequence a second time leaves a field
unchanged. -/
theorem foldUpd_absorb (sel : Job → Option String) (bs : List Job)
    (x : Option String) : foldUpd sel bs (foldUpd sel bs x) = foldUpd sel bs x := by
  by_cases h : bs.any (fun b => truthy (sel b)) = true
  · exact foldUpd_of_any sel bs h _ _
  · rw [Bool.not_eq_true] at h
    rw [foldUpd_of_not_any sel bs h, foldUpd_of_not_any sel bs h]

theorem applyTargeted_field (sel : Job → Option String)
    (hsel : ∀ t b j, sel (applyUpdate t b j) = if truthy (sel b) then sel b else sel j)
    (t : String) (bs : List Job) (j : Job) :
    sel (applyTargeted t j bs) = foldUpd sel bs (sel j) := by
  induction bs generalizing j with
  | nil => rfl
  | cons b bs ih => rw [applyTargeted_cons, ih, foldUpd_cons, hsel]

/-! ## Absorption: replaying the same updates changes only `last_seen` -/

theorem applyUpdate_description (t : String) (b j : Job) :
    (applyUpdate t b j).description =
      if truthy b.description then b.description else j.description := rfl

theorem applyUpdate_posted_date (t : String) (b j : Job) :
    (applyUpdate t b j).posted_date =
      if truthy b.posted_date then b.posted_date else j.posted_date := rfl

theorem applyUpdate_salary (t : String) (b j : Job) :
    (applyUpdate t b j).salary =
      if truthy b.salary then b.salary else j.salary := rfl

theorem applyUpdate_employment_type (t : String) (b j : Job) :
    (applyUpdate t b j).employment_type =
      if truthy b.employment_type then b.employment_type else j.employment_type := rfl

theorem applyTargeted_description (t : String) (bs : List Job) (j : Job) :
    (applyTargeted t j bs).description = foldUpd (fun b => b.description) bs j.description :=
  applyTargeted_field _ (fun _ _ _ => rfl) t bs j

theorem applyTargeted_posted_date (t : String) (bs : List Job) (j : Job) :
    (applyTargeted t j bs).posted_date = foldUpd (fun b => b.posted_date) bs j.posted_date :=
  applyTargeted_field _ (fun _ _ _ => rfl) t bs j

theorem applyTargeted_salary (t : String) (bs : List Job) (j : Job) :
    (applyTargeted t j bs).salary = foldUpd (fun b => b.salary) bs j.salary :=
  applyTargeted_field _ (fun _ _ _ => rfl) t bs j

theorem applyTargeted_employment_type (t : String) (bs : List Job) (j : Job) :
    (applyTargeted t j bs).employment_type =
      foldUpd (fun b => b.employment_type) bs j.employment_type :=
  applyTargeted_field _ (fun _ _ _ => rfl) t bs j

/-- Replaying a full update sequence over an already-updated record changes
nothing but `last_seen`. -/
theorem clearLastSeen_replay (t1 t2 : String) (bs : List Job) (j : Job) :
    clearLastSeen (applyTargeted t2 (applyTargeted t1 j bs) bs) =
      clearLastSeen (applyTargeted t1 j bs) := by
  apply Job.ext <;>
    simp [clearLastSeen, applyTargeted_id,
      applyTargeted_frame (fun j => j.title) (fun _ _ _ => rfl),
      applyTargeted_frame (fun j => j.company) (fun _ _ _ => rfl),
      applyTargeted_frame (fun j => j.location) (fun _ _ _ => rfl),
      applyTargeted_frame (fun j => j.url) (fun _ _ _ => rfl),
      applyTargeted_frame (fun j => j.scraped_date) (fun _ _ _ => rfl),
      applyTargeted_frame (fun j => j.status) (fun _ _ _ => rfl),
      applyTargeted_frame (fun j => j.jobId) (fun _ _ _ => rfl),
      applyTargeted_frame (fun j => j.level) (fun _ _ _ => rfl),
      applyTargeted_frame (fun j => j.jobDescription) (fun _ _ _ => rfl),
      applyTargeted_frame (fun j => j.source) (fun _ _ _ => rfl),
      applyTargeted_description, applyTargeted_posted_date,
      applyTargeted_salary, applyTargeted_employment_type, foldUpd_absorb]

/-! ## Lemmas about `update_existing_job` -/

theorem update_existing_job_idArg (t h : String) (b : Job) (x : Option String)
    (l : List Job) :
    update_existing_job t h { b with id := x } l = update_existing_job t h b l := by
  induction l with
  | nil => rfl
  | cons j rest ih =>
      unfold update_existing_job
      rw [applyUpdate_idArg, ih]

theorem update_existing_job_of_no_match (t h : String) (b : Job) (l : List Job)
    (hl : ∀ j ∈ l, j.id ≠ some h) : update_existing_job t h b l = l := by
  induction l with
  | nil => rfl
  | cons j rest ih =>
      unfold update_existing_job
      rw [if_neg (hl j (List.mem_cons_self j rest)),
        ih fun k hk => hl k (List.mem_cons_of_mem j hk)]

theorem update_existing_job_map_id (t h : String) (b : Job) (l : List Job) :
    (update_existing_job t h b l).map (fun j => j.id) = l.map (fun j => j.id) := by
  induction l with
  | nil => rfl
  | cons j rest ih =>
      unfold update_existing_job
      split
      · simp [applyUpdate]
      · simp [ih]

/-! ## Lemmas about `targetsFor` and `corePart` -/

theorem targetsFor_nil_bs (md5 : String → String) (seen : List (Option String))
    (oid : Option String) : targetsFor md5 seen oid [] = [] := by
  cases oid with
  | none => rfl
  | some v => simp [targetsFor]

theorem targetsFor_cons (md5 : String → String) (seen : List (Option String))
    (oid : Option String) (b : Job) (bs : List Job) :
    targetsFor md5 seen oid (b :: bs) =
      if oid = some (generate_job_hash md5 b) ∧ (some (generate_job_hash md5 b)) ∉ seen
      then b :: targetsFor md5 seen oid bs
      else targetsFor md5 seen oid bs := by
  unfold targetsFor
  cases oid with
  | none => simp
  | some v =>
      by_cases hmem : (some v) ∈ seen
      · simp only [if_pos hmem]
        rw [if_neg]
        rintro ⟨hv, hb⟩
        exact hb (by simpa [hv] using hmem)
      · simp only [if_neg hmem, List.filter_cons]
        by_cases hv : generate_job_hash md5 b = v
        · rw [if_pos (by simp [hv]), if_pos ⟨by simp [hv], by simp [hv, hmem]⟩]
        · rw [if_neg (by simp [hv]), if_neg (by rintro ⟨h1, _⟩; simp at h1; exact hv h1.symm)]

theorem corePart_nil_bs (md5 : String → String) (t : String)
    (seen : List (Option String)) (l : List Job) :
    corePart md5 t [] seen l = l := by
  induction l generalizing seen with
  | nil => rfl
  | cons j rest ih =>
      unfold corePart
      rw [targetsFor_nil_bs, applyTargeted_nil, ih]

theorem corePart_append (md5 : String → String) (t : String) (bs : List Job)
    (seen : List (Option String)) (l1 l2 : List Job) :
    corePart md5 t bs seen (l1 ++ l2) =
      corePart md5 t bs seen l1 ++
        corePart md5 t bs (seen ++ l1.map (fun j => j.id)) l2 := by
  induction l1 generalizing seen with
  | nil => simp [corePart]
  | cons j rest ih =>
      simp only [List.cons_append, corePart, List.map_cons, List.append_eq]
      rw [ih]
      simp [List.append_assoc]

theorem corePart_map_id (md5 : String → String) (t : String) (bs : List Job)
    (seen : List (Option String)) (l : List Job) :
    (corePart md5 t bs seen l).map (fun j => j.id) = l.map (fun j => j.id) := by
  induction l generalizing seen with
  | nil => rfl
  | cons j rest ih =>
      unfold corePart
      simp [applyTargeted_id, ih]

theorem corePart_map_idQuad (md5 : String → String) (t : String) (bs : List Job)
    (seen : List (Option String)) (l : List Job) :
    (corePart md5 t bs seen l).map idQuad = l.map idQuad := by
  induction l generalizing seen with
  | nil => rfl
  | cons j rest ih =>
      unfold corePart
      simp [applyTargeted_idQuad, ih]

theorem corePart_map_gjh (md5 : String → String) (t : String) (bs : List Job)
    (seen : List (Option String)) (l : List Job) :
    (corePart md5 t bs seen l).map (generate_job_hash md5) =
      l.map (generate_job_hash md5) := by
  induction l generalizing seen with
  | nil => rfl
  | cons j rest ih =>
      unfold corePart
      simp [gjh_applyTargeted, ih]

theorem corePart_length (md5 : String → String) (t : String) (bs : List Job)
    (seen : List (Option String)) (l : List Job) :
    (corePart md5 t bs seen l).length = l.length := by
  have := congrArg List.length (corePart_map_id md5 t bs seen l)
  simpa using this

/-- Pulling the first batch record out of `corePart`: processing `b :: bs`
over a list equals processing `bs` over the list with `b`'s update already
applied (a no-op when `b`'s fingerprint already occurred among the seen
ids). -/
theorem corePart_consBatch (md5 : String → String) (t : String) (b : Job)
    (bs : List Job) (l : List Job) (seen : List (Option String)) :
    corePart md5 t (b :: bs) seen l =
      corePart md5 t bs seen
        (if (some (generate_job_hash md5 b)) ∈ seen then l
         else update_existing_job t (generate_job_hash md5 b) b l) := by
  induction l generalizing seen with
  | nil =>
      split <;> simp [corePart, update_existing_job]
  | cons j rest ih =>
      by_cases hmem : (some (generate_job_hash md5 b)) ∈ seen
      · rw [if_pos hmem]
        unfold corePart
        rw [targetsFor_cons, if_neg (by rintro ⟨_, hb⟩; exact hb hmem), ih,
          if_pos (List.mem_append_left _ hmem)]
      · rw [if_neg hmem]
        by_cases hid : j.id = some (generate_job_hash md5 b)
        · unfold update_existing_job
          rw [if_pos hid]
          unfold corePart
          have hidu : (applyUpdate t b j).id = some (generate_job_hash md5 b) := hid
          rw [targetsFor_cons, if_pos ⟨hid, hmem⟩, hid, hidu]
          simp only [targetsFor]
          rw [if_neg hmem, applyTargeted_cons, ih,
            if_pos (List.mem_append_right _ (by simp))]
        · unfold update_existing_job
          rw [if_neg hid]
          unfold corePart
          rw [targetsFor_cons, if_neg (by rintro ⟨h1, _⟩; exact hid h1), ih,
            if_neg (by
              intro hc
              rcases List.mem_append.mp hc with hc | hc
              · exact hmem hc
              · simp at hc
                exact hid hc.symm)]

/-! ## Lemmas about `freshList` -/

theorem freshList_mem_not_mem (md5 : String → String) (hashes : List String)
    (bs : List Job) (b0 : Job) (h : b0 ∈ freshList md5 hashes bs) :
    generate_job_hash md5 b0 ∉ hashes := by
  induction bs generalizing hashes with
  | nil => simp [freshList] at h
  | cons b rest ih =>
      unfold freshList at h
      split at h
      · exact ih hashes h
      · rcases List.mem_cons.mp h with rfl | h
        · assumption
        · intro hc
          exact ih _ h (List.mem_cons_of_mem _ hc)

theorem freshList_mem_filter_first (md5 : String → String) (hashes : List String)
    (bs : List Job) (b0 : Job) (h : b0 ∈ freshList md5 hashes bs) :
    ∃ tl, bs.filter (fun b => generate_job_hash md5 b == generate_job_hash md5 b0)
      = b0 :: tl := by
  induction bs generalizing hashes with
  | nil => simp [freshList] at h
  | cons b rest ih =>
      unfold freshList at h
      split at h
      · rename_i hb
        have hne : generate_job_hash md5 b ≠ generate_job_hash md5 b0 := by
          intro hc
          exact freshList_mem_not_mem md5 hashes rest b0 h (hc ▸ hb)
        rw [List.filter_cons, if_neg (by simp [hne])]
        exact ih hashes h
      · rcases List.mem_cons.mp h with rfl | h
        · exact ⟨_, by rw [List.filter_cons, if_pos (by simp)]⟩
        · have hne : generate_job_hash md5 b ≠ generate_job_hash md5 b0 := by
            intro hc
            exact freshList_mem_not_mem md5 _ rest b0 h (by simp [hc])
          rw [List.filter_cons, if_neg (by simp [hne])]
          exact ih _ h

theorem freshList_hashes_nodup (md5 : String → String) (hashes : List String)
    (bs : List Job) :
    ((freshList md5 hashes bs).map (generate_job_hash md5)).Nodup := by
  induction bs generalizing hashes with
  | nil => simp [freshList]
  | cons b rest ih =>
      unfold freshList
      split
      · exact ih hashes
      · simp only [List.map_cons, List.nodup_cons]
        refine ⟨?_, ih _⟩
        intro hc
        rcases List.mem_map.mp hc with ⟨b1, hb1, hb1e⟩
        exact freshList_mem_not_mem md5 _ rest b1 hb1 (by simp [hb1e])

theorem freshList_sublist (md5 : String → String) (hashes : List String)
    (bs : List Job) : (freshList md5 hashes bs).Sublist bs := by
  induction bs generalizing hashes with
  | nil => simp [freshList]
  | cons b rest ih =>
      unfold freshList
      split
      · exact (ih hashes).cons b
      · exact (ih _).cons₂ b

theorem freshList_covers (md5 : String → String) (hashes : List String)
    (bs : List Job) (b : Job) (hb : b ∈ bs) :
    generate_job_hash md5 b ∈ hashes ∨
      generate_job_hash md5 b ∈ (freshList md5 hashes bs).map (generate_job_hash md5) := by
  induction bs generalizing hashes with
  | nil => simp at hb
  | cons b1 rest ih =>
      unfold freshList
      rcases List.mem_cons.mp hb with rfl | hb
      · by_cases h1 : generate_job_hash md5 b ∈ hashes
        · exact Or.inl h1
        · rw [if_neg h1]
          exact Or.inr (by simp)
      · split
        · exact ih hashes hb
        · rcases ih (generate_job_hash md5 b1 :: hashes) hb with h | h
          · rcases List.mem_cons.mp h with h | h
            · exact Or.inr (by simp [h])
            · exact Or.inl h
          · exact Or.inr (by simp [h])

theorem freshList_of_all_known (md5 : String → String) (hashes : List String)
    (bs : List Job) (h : ∀ b ∈ bs, generate_job_hash md5 b ∈ hashes) :
    freshList md5 hashes bs = [] := by
  induction bs with
  | nil => rfl
  | cons b rest ih =>
      unfold freshList
      rw [if_pos (h b (List.mem_cons_self b rest))]
      exact ih fun b1 hb1 => h b1 (List.mem_cons_of_mem b hb1)

/-! ## The merge characterization -/

theorem freshList_cons (md5 : String → String) (hashes : List String) (b : Job)
    (rest : List Job) :
    freshList md5 hashes (b :: rest) =
      if generate_job_hash md5 b ∈ hashes then freshList md5 hashes rest
      else b :: freshList md5 (generate_job_hash md5 b :: hashes) rest := rfl


theorem newPart_cons_known (md5 : String → String) (t : String) (hashes : List String)
    (b : Job) (rest : List Job) (hb : generate_job_hash md5 b ∈ hashes) :
    newPart md5 t hashes (b :: rest) = newPart md5 t hashes rest := by
  unfold newPart
  rw [show freshList md5 hashes (b :: rest) = freshList md5 hashes rest by
    rw [freshList_cons, if_pos hb]]
  apply List.map_congr_left
  intro b0 hb0
  have hne : generate_job_hash md5 b ≠ generate_job_hash md5 b0 := fun hc =>
    freshList_mem_not_mem md5 hashes rest b0 hb0 (hc ▸ hb)
  rw [List.filter_cons, if_neg (by simp [hne])]

theorem newPart_cons_fresh (md5 : String → String) (t : String) (hashes : List String)
    (b : Job) (rest : List Job) (hb : generate_job_hash md5 b ∉ hashes) :
    newPart md5 t hashes (b :: rest) =
      applyTargeted t (stampNew md5 t b)
          (rest.filter (fun x => generate_job_hash md5 x == generate_job_hash md5 b)) ::
        newPart md5 t (generate_job_hash md5 b :: hashes) rest := by
  unfold newPart
  rw [show freshList md5 hashes (b :: rest) =
      b :: freshList md5 (generate_job_hash md5 b :: hashes) rest by
    rw [freshList_cons, if_neg hb]]
  simp only [List.map_cons]
  congr 1
  · rw [List.filter_cons, if_pos (by simp), List.tail_cons]
  · apply List.map_congr_left
    intro b0 hb0
    have hne : generate_job_hash md5 b ≠ generate_job_hash md5 b0 := by
      intro hc
      exact freshList_mem_not_mem md5 _ rest b0 hb0 (by simp [hc])
    rw [List.filter_cons, if_neg (by simp [hne])]

/-- Positional characterization of the `deduplicate_jobs` loop: provided
every `id` present in the accumulated list is a known hash, the loop
produces exactly the positionally-updated original records followed by the
stamped-and-updated genuinely new records, and counts the genuinely new
records. -/
theorem processNew_eq (md5 : String → String) (t : String) (bs : List Job)
    (l : List Job) (hashes : List String) (c : Nat)
    (hinv : ∀ j ∈ l, ∀ v, j.id = some v → v ∈ hashes) :
    processNew md5 t l hashes c bs =
      (corePart md5 t bs [] l ++ newPart md5 t hashes bs,
        c + (freshList md5 hashes bs).length) := by
  induction bs generalizing l hashes c with
  | nil =>
      simp [processNew, corePart_nil_bs, newPart, freshList]
  | cons b rest ih =>
      by_cases hb : generate_job_hash md5 b ∈ hashes
      · have hstep : processNew md5 t l hashes c (b :: rest) =
            processNew md5 t
              (update_existing_job t (generate_job_hash md5 b) b l) hashes c rest := by
          simp only [processNew]
          rw [if_pos hb, update_existing_job_idArg]
        rw [hstep]
        have hinv2 : ∀ j ∈ update_existing_job t (generate_job_hash md5 b) b l,
            ∀ v, j.id = some v → v ∈ hashes := by
          intro j hj v hv
          have hmap := update_existing_job_map_id t (generate_job_hash md5 b) b l
          have hvm : some v ∈ l.map (fun j => j.id) := by
            rw [← hmap]
            exact List.mem_map.mpr ⟨j, hj, hv⟩
          rcases List.mem_map.mp hvm with ⟨j1, hj1, hj1e⟩
          exact hinv j1 hj1 v hj1e
        rw [ih _ _ _ hinv2]
        rw [corePart_consBatch, if_neg (by simp), freshList_cons, if_pos hb,
          newPart_cons_known md5 t hashes b rest hb]
      · have hnotin : ∀ j ∈ l, j.id ≠ some (generate_job_hash md5 b) := by
          intro j hj hc
          exact hb (hinv j hj _ hc)
        have hstep : processNew md5 t l hashes c (b :: rest) =
            processNew md5 t (l ++ [stampNew md5 t b])
              (generate_job_hash md5 b :: hashes) (c + 1) rest := by
          simp only [processNew]
          rw [if_neg hb]
          rfl
        rw [hstep]
        have hinv2 : ∀ j ∈ l ++ [stampNew md5 t b],
            ∀ v, j.id = some v → v ∈ generate_job_hash md5 b :: hashes := by
          intro j hj v hv
          rcases List.mem_append.mp hj with hj | hj
          · exact List.mem_cons_of_mem _ (hinv j hj v hv)
          · simp only [List.mem_singleton] at hj
            subst hj
            have hveq : v = generate_job_hash md5 b := by
              simpa [stampNew] using hv.symm
            simp [hveq]
        rw [ih _ _ _ hinv2]
        rw [corePart_append, corePart_consBatch, if_neg (by simp),
          update_existing_job_of_no_match _ _ _ _ hnotin]
        have hsingle : corePart md5 t rest ([] ++ l.map (fun j => j.id)) [stampNew md5 t b] =
            [applyTargeted t (stampNew md5 t b)
              (rest.filter (fun x =>
                generate_job_hash md5 x == generate_job_hash md5 b))] := by
          simp only [corePart, stampNew, targetsFor, List.nil_append]
          rw [if_neg (by
            intro hc
            rcases List.mem_map.mp hc with ⟨j1, hj1, hj1e⟩
            exact hnotin j1 hj1 hj1e)]
        rw [hsingle, newPart_cons_fresh md5 t hashes b rest hb, freshList_cons, if_neg hb]
        rw [Prod.mk.injEq]
        refine ⟨by simp [List.append_assoc], ?_⟩
        simp only [List.length_cons]
        omega

/-! ## Replay lemmas: merging the same batch twice -/

theorem deduplicate_jobs_eq (md5 : String → String) (now : String)
    (C B : List Job) :
    deduplicate_jobs md5 now C B =
      (mergeSpec md5 now (C.map (ensureId md5))
          ((C.map (ensureId md5)).filterMap (fun j => j.id)) B,
        (freshList md5 ((C.map (ensureId md5)).filterMap (fun j => j.id)) B).length) := by
  unfold deduplicate_jobs mergeSpec
  rw [processNew_eq md5 now B (C.map (ensureId md5)) _ 0
    (fun j hj v hv => List.mem_filterMap.mpr ⟨j, hj, hv⟩)]
  simp

theorem foldUpd_reapply (sel : Job → Option String) (bs : List Job)
    (y : Option String) :
    foldUpd sel bs (if truthy y then y else foldUpd sel bs y) = foldUpd sel bs y := by
  by_cases h : truthy y = true
  · rw [if_pos h]
  · rw [if_neg h, foldUpd_absorb]

/-- Re-folding a stamped fresh record's own update and its trailing updates
over the already-updated record changes only `last_seen`. -/
theorem clearLastSeen_stamp_replay (md5 : String → String) (t1 t2 : String)
    (b0 : Job) (tl : List Job) :
    clearLastSeen (applyTargeted t2 (applyTargeted t1 (stampNew md5 t1 b0) tl) (b0 :: tl)) =
      clearLastSeen (applyTargeted t1 (stampNew md5 t1 b0) tl) := by
  rw [applyTargeted_cons]
  apply Job.ext <;>
    simp [clearLastSeen, applyUpdate, stampNew, applyTargeted_id,
      applyTargeted_frame (fun j => j.title) (fun _ _ _ => rfl),
      applyTargeted_frame (fun j => j.company) (fun _ _ _ => rfl),
      applyTargeted_frame (fun j => j.location) (fun _ _ _ => rfl),
      applyTargeted_frame (fun j => j.url) (fun _ _ _ => rfl),
      applyTargeted_frame (fun j => j.scraped_date) (fun _ _ _ => rfl),
      applyTargeted_frame (fun j => j.status) (fun _ _ _ => rfl),
      applyTargeted_frame (fun j => j.jobId) (fun _ _ _ => rfl),
      applyTargeted_frame (fun j => j.level) (fun _ _ _ => rfl),
      applyTargeted_frame (fun j => j.jobDescription) (fun _ _ _ => rfl),
      applyTargeted_frame (fun j => j.source) (fun _ _ _ => rfl),
      applyTargeted_description, applyTargeted_posted_date,
      applyTargeted_salary, applyTargeted_employment_type,
      foldUpd_reapply]

/-- Re-running `corePart` with the same batch over an already-processed
list changes only `last_seen` stamps. -/
theorem corePart_replay (md5 : String → String) (t1 t2 : String) (bs : List Job)
    (l : List Job) (seen : List (Option String)) :
    (corePart md5 t2 bs seen (corePart md5 t1 bs seen l)).map clearLastSeen =
      (corePart md5 t1 bs seen l).map clearLastSeen := by
  induction l generalizing seen with
  | nil => rfl
  | cons j rest ih =>
      show (corePart md5 t2 bs seen
        (applyTargeted t1 j (targetsFor md5 seen j.id bs) ::
          corePart md5 t1 bs (seen ++ [j.id]) rest)).map clearLastSeen = _
      unfold corePart
      rw [applyTargeted_id]
      simp only [List.map_cons]
      rw [clearLastSeen_replay, ih]

/-- Re-running `corePart` with the same batch over the appended fresh
records changes only `last_seen` stamps. -/
theorem corePart_fresh_replay (md5 : String → String) (t1 t2 : String)
    (bs : List Job) (fl : List Job) (seen : List (Option String))
    (hfirst : ∀ b0 ∈ fl, ∃ tl,
      bs.filter (fun b => generate_job_hash md5 b == generate_job_hash md5 b0) = b0 :: tl)
    (hseen : ∀ b0 ∈ fl, (some (generate_job_hash md5 b0)) ∉ seen)
    (hdist : fl.Pairwise (fun a b => generate_job_hash md5 a ≠ generate_job_hash md5 b)) :
    (corePart md5 t2 bs seen (fl.map (fun b0 =>
        applyTargeted t1 (stampNew md5 t1 b0)
          ((bs.filter (fun b =>
            generate_job_hash md5 b == generate_job_hash md5 b0)).tail)))).map clearLastSeen
      = (fl.map (fun b0 => applyTargeted t1 (stampNew md5 t1 b0)
          ((bs.filter (fun b =>
            generate_job_hash md5 b == generate_job_hash md5 b0)).tail))).map clearLastSeen := by
  induction fl generalizing seen with
  | nil => rfl
  | cons b0 fl' ih =>
      simp only [List.map_cons]
      unfold corePart
      rw [applyTargeted_id]
      rw [show (stampNew md5 t1 b0).id = some (generate_job_hash md5 b0) from rfl]
      simp only [targetsFor]
      rw [if_neg (hseen b0 (List.mem_cons_self b0 fl'))]
      rcases hfirst b0 (List.mem_cons_self b0 fl') with ⟨tl, htl⟩
      have htail : (bs.filter (fun b =>
          generate_job_hash md5 b == generate_job_hash md5 b0)).tail = tl := by
        rw [htl, List.tail_cons]
      simp only [List.map_cons]
      congr 1
      · rw [htail, htl]
        exact clearLastSeen_stamp_replay md5 t1 t2 b0 tl
      · rcases List.pairwise_cons.mp hdist with ⟨hd1, hd2⟩
        apply ih
        · intro b1 hb1
          exact hfirst b1 (List.mem_cons_of_mem b0 hb1)
        · intro b1 hb1
          intro hc
          rcases List.mem_append.mp hc with hc | hc
          · exact hseen b1 (List.mem_cons_of_mem b0 hb1) hc
          · simp only [List.mem_singleton, Option.some.injEq] at hc
            exact hd1 b1 hb1 hc.symm
        · exact hd2

/-! ## The merge result is stable under a second id-assignment pass -/

/-- A record whose stored `id` is Python-truthy or equal to its own
fingerprint; `ensureId` leaves such a record unchanged. Every record a
merge produces has this property. -/
def goodId (md5 : String → String) (j : Job) : Prop :=
  ∃ v, j.id = some v ∧ (v ≠ "" ∨ v = generate_job_hash md5 j)

theorem ensureId_eq_self (md5 : String → String) (j : Job) (h : goodId md5 j) :
    ensureId md5 j = j := by
  rcases h with ⟨v, hv, hgood⟩
  unfold ensureId
  by_cases ht : truthy j.id = true
  · rw [if_pos ht]
  · rw [if_neg ht]
    have hv0 : v = "" := by
      rw [hv] at ht
      simpa [truthy] using ht
    rcases hgood with hne | heq
    · exact absurd hv0 hne
    · have hid : j.id = some (generate_job_hash md5 j) := by rw [hv, heq]
      apply Job.ext <;> simp [hid]

theorem goodId_applyTargeted (md5 : String → String) (t : String) (bs : List Job)
    (j : Job) (h : goodId md5 j) : goodId md5 (applyTargeted t j bs) := by
  rcases h with ⟨v, hv, hg⟩
  exact ⟨v, by rw [applyTargeted_id, hv], by rw [gjh_applyTargeted]; exact hg⟩

theorem goodId_ensureId (md5 : String → String) (j : Job) :
    goodId md5 (ensureId md5 j) := by
  unfold ensureId
  by_cases ht : truthy j.id = true
  · rw [if_pos ht]
    cases hj : j.id with
    | none => rw [hj] at ht; simp [truthy] at ht
    | some v =>
        refine ⟨v, hj, Or.inl ?_⟩
        rw [hj] at ht
        simpa [truthy] using ht
  · rw [if_neg ht]
    exact ⟨generate_job_hash md5 j, rfl, Or.inr (gjh_idArg md5 j _).symm⟩

theorem goodId_stampNew (md5 : String → String) (t : String) (b0 : Job) :
    goodId md5 (stampNew md5 t b0) :=
  ⟨generate_job_hash md5 b0, rfl, Or.inr (gjh_stampNew md5 t b0).symm⟩

theorem corePart_mem (md5 : String → String) (t : String) (bs : List Job)
    (seen : List (Option String)) (l : List Job) (j' : Job)
    (h : j' ∈ corePart md5 t bs seen l) :
    ∃ j ∈ l, ∃ T, j' = applyTargeted t j T := by
  induction l generalizing seen with
  | nil => simp [corePart] at h
  | cons j rest ih =>
      unfold corePart at h
      rcases List.mem_cons.mp h with h | h
      · exact ⟨j, List.mem_cons_self j rest, _, h⟩
      · rcases ih _ h with ⟨j1, hj1, T, hT⟩
        exact ⟨j1, List.mem_cons_of_mem j hj1, T, hT⟩

theorem merge_result_goodId (md5 : String → String) (t : String) (C B : List Job)
    (j : Job) (hj : j ∈ (deduplicate_jobs md5 t C B).1) : goodId md5 j := by
  rw [deduplicate_jobs_eq] at hj
  simp only [mergeSpec] at hj
  rcases List.mem_append.mp hj with hj | hj
  · rcases corePart_mem md5 t B [] _ j hj with ⟨j0, hj0, T, rfl⟩
    rcases List.mem_map.mp hj0 with ⟨j00, _, rfl⟩
    exact goodId_applyTargeted md5 t T _ (goodId_ensureId md5 j00)
  · rcases List.mem_map.mp hj with ⟨b0, _, rfl⟩
    exact goodId_applyTargeted md5 t _ _ (goodId_stampNew md5 t b0)

theorem merge_result_map_ensure (md5 : String → String) (t : String)
    (C B : List Job) :
    ((deduplicate_jobs md5 t C B).1).map (ensureId md5) = (deduplicate_jobs md5 t C B).1 := by
  rw [List.map_congr_left
    (fun j hj => ensureId_eq_self md5 j (merge_result_goodId md5 t C B j hj))]
  exact List.map_id _

theorem merge_result_covers (md5 : String → String) (t : String) (C B : List Job)
    (b : Job) (hb : b ∈ B) :
    ∃ j ∈ (deduplicate_jobs md5 t C B).1, j.id = some (generate_job_hash md5 b) := by
  rw [deduplicate_jobs_eq]
  simp only [mergeSpec]
  rcases freshList_covers md5
      ((C.map (ensureId md5)).filterMap (fun j => j.id)) B b hb with h | h
  · have hmem : some (generate_job_hash md5 b) ∈
        (corePart md5 t B [] (C.map (ensureId md5))).map (fun j => j.id) := by
      rw [corePart_map_id]
      rcases List.mem_filterMap.mp h with ⟨j0, hj0, hid⟩
      exact List.mem_map.mpr ⟨j0, hj0, hid⟩
    rcases List.mem_map.mp hmem with ⟨j1, hj1, hj1e⟩
    exact ⟨j1, List.mem_append_left _ hj1, hj1e⟩
  · rcases List.mem_map.mp h with ⟨b0, hb0, hb0e⟩
    refine ⟨applyTargeted t (stampNew md5 t b0)
        ((B.filter (fun x =>
          generate_job_hash md5 x == generate_job_hash md5 b0)).tail),
      List.mem_append_right _ (List.mem_map.mpr ⟨b0, hb0, rfl⟩), ?_⟩
    rw [applyTargeted_id]
    show some (generate_job_hash md5 b0) = some (generate_job_hash md5 b)
    rw [hb0e]

/-- Applying the same batch a second time appends nothing: the second merge
is exactly the positional re-update of the first merge's result. -/
theorem second_merge_eq (md5 : String → String) (t1 t2 : String) (C B : List Job) :
    deduplicate_jobs md5 t2 (deduplicate_jobs md5 t1 C B).1 B =
      (corePart md5 t2 B [] (deduplicate_jobs md5 t1 C B).1, 0) := by
  have h1 : ((deduplicate_jobs md5 t1 C B).1).map (ensureId md5) =
      (deduplicate_jobs md5 t1 C B).1 := merge_result_map_ensure md5 t1 C B
  have h2 : deduplicate_jobs md5 t2 (deduplicate_jobs md5 t1 C B).1 B =
      processNew md5 t2 (deduplicate_jobs md5 t1 C B).1
        (((deduplicate_jobs md5 t1 C B).1).filterMap (fun j => j.id)) 0 B := by
    conv_lhs => rw [show deduplicate_jobs md5 t2 (deduplicate_jobs md5 t1 C B).1 B =
      processNew md5 t2 (((deduplicate_jobs md5 t1 C B).1).map (ensureId md5))
        ((((deduplicate_jobs md5 t1 C B).1).map (ensureId md5)).filterMap (fun j => j.id))
        0 B from rfl]
    rw [h1]
  have hfresh : freshList md5
      (((deduplicate_jobs md5 t1 C B).1).filterMap (fun j => j.id)) B = [] := by
    apply freshList_of_all_known
    intro b hb
    rcases merge_result_covers md5 t1 C B b hb with ⟨j, hj, hid⟩
    exact List.mem_filterMap.mpr ⟨j, hj, hid⟩
  rw [h2, processNew_eq md5 t2 B _ _ 0
    (fun j hj v hv => List.mem_filterMap.mpr ⟨j, hj, hv⟩)]
  simp only [Prod.mk.injEq]
  refine ⟨?_, ?_⟩
  · rw [newPart]
    rw [show freshList md5
        (List.filterMap (fun j => j.id) (deduplicate_jobs md5 t1 C B).1) B = []
      from hfresh]
    simp
  · rw [show freshList md5
        (List.filterMap (fun j => j.id) (deduplicate_jobs md5 t1 C B).1) B = []
      from hfresh]
    rfl

theorem corePart_out1_replay (md5 : String → String) (t1 t2 : String)
    (C B : List Job) :
    (corePart md5 t2 B [] (deduplicate_jobs md5 t1 C B).1).map clearLastSeen =
      ((deduplicate_jobs md5 t1 C B).1).map clearLastSeen := by
  have hout : (deduplicate_jobs md5 t1 C B).1 =
      corePart md5 t1 B [] (C.map (ensureId md5)) ++
        newPart md5 t1 ((C.map (ensureId md5)).filterMap (fun j => j.id)) B := by
    rw [deduplicate_jobs_eq]
    rfl
  rw [hout, corePart_append, List.map_append, List.map_append]
  congr 1
  · exact corePart_replay md5 t1 t2 B _ []
  · rw [List.nil_append, corePart_map_id]
    simp only [newPart]
    apply corePart_fresh_replay
    · exact fun b0 hb0 => freshList_mem_filter_first md5 _ B b0 hb0
    · intro b0 hb0 hc
      rcases List.mem_map.mp hc with ⟨j, hj, hje⟩
      exact freshList_mem_not_mem md5 _ B b0 hb0 (List.mem_filterMap.mpr ⟨j, hj, hje⟩)
    · have h := freshList_hashes_nodup md5
        ((C.map (ensureId md5)).filterMap (fun j => j.id)) B
      exact List.pairwise_map.mp h

/-! ## Remaining helper lemmas -/

theorem ensureId_id_eq (md5 : String → String) (j : Job)
    (h : truthy j.id = true → j.id = some (generate_job_hash md5 j)) :
    (ensureId md5 j).id = some (generate_job_hash md5 j) := by
  unfold ensureId
  by_cases ht : truthy j.id = true
  · rw [if_pos ht]
    exact h ht
  · rw [if_neg ht]

theorem ids_of_ensure (md5 : String → String) (C : List Job)
    (hid : ∀ j ∈ C, truthy j.id = true → j.id = some (generate_job_hash md5 j)) :
    (C.map (ensureId md5)).filterMap (fun j => j.id) =
      C.map (generate_job_hash md5) := by
  induction C with
  | nil => rfl
  | cons j rest ih =>
      simp only [List.map_cons, List.filterMap_cons,
        ensureId_id_eq md5 j (hid j (List.mem_cons_self j rest))]
      rw [ih fun k hk => hid k (List.mem_cons_of_mem j hk)]

theorem update_existing_job_split (t h : String) (b j : Job) (pre post : List Job)
    (hpre : ∀ k ∈ pre, k.id ≠ some h) (hj : j.id = some h) :
    update_existing_job t h b (pre ++ j :: post) = pre ++ applyUpdate t b j :: post := by
  induction pre with
  | nil =>
      simp only [List.nil_append]
      unfold update_existing_job
      rw [if_pos hj]
  | cons k pre ih =>
      simp only [List.cons_append]
      unfold update_existing_job
      rw [if_neg (hpre k (List.mem_cons_self k pre)),
        ih fun k1 hk1 => hpre k1 (List.mem_cons_of_mem k hk1)]

theorem idQuad_applyUpdate (t : String) (b j : Job) :
    idQuad (applyUpdate t b j) = idQuad j := rfl

theorem idQuad_stampNew (md5 : String → String) (t : String) (b : Job) :
    idQuad (stampNew md5 t b) = idQuad b := rfl

/-! ## Claim theorems -/

/-- **C2** (amended). The fingerprint is pure and deterministic: repeated
applications agree; records whose normalized (stripped, lower-cased) title,
company, location and url agree always receive the same fingerprint (hence
invariance under case/whitespace-only changes); and a missing key field is
treated exactly like an empty one. (The converse — equal fingerprints only
when the normalized fields agree — fails; see the counterexample.) -/
theorem fingerprint_deterministic_amended (md5 : String → String) (r j1 j2 : Job)
    (ht : normalizeField j1.title = normalizeField j2.title)
    (hc : normalizeField j1.company = normalizeField j2.company)
    (hl : normalizeField j1.location = normalizeField j2.location)
    (hu : normalizeField j1.url = normalizeField j2.url) :
    generate_job_hash md5 r = generate_job_hash md5 r ∧
    generate_job_hash md5 j1 = generate_job_hash md5 j2 ∧
    (∀ j : Job, generate_job_hash md5 { j with title := none } =
      generate_job_hash md5 { j with title := some "" }) ∧
    (∀ j : Job, generate_job_hash md5 { j with company := none } =
      generate_job_hash md5 { j with company := some "" }) ∧
    (∀ j : Job, generate_job_hash md5 { j with location := none } =
      generate_job_hash md5 { j with location := some "" }) ∧
    (∀ j : Job, generate_job_hash md5 { j with url := none } =
      generate_job_hash md5 { j with url := some "" }) := by
  refine ⟨rfl, ?_, fun j => rfl, fun j => rfl, fun j => rfl, fun j => rfl⟩
  unfold generate_job_hash hashString
  rw [ht, hc, hl, hu]

/-- **C2** witness: two case/whitespace variants of the same key fields
share a fingerprint. -/
theorem fingerprint_deterministic_witness :
    normalizeField (some " A ") = normalizeField (some "a") ∧
    generate_job_hash (fun s => s) { title := some " A " } =
      generate_job_hash (fun s => s) { title := some "a" } :=
  ⟨by decide,
    (fingerprint_deterministic_amended (fun s => s) {} { title := some " A " }
      { title := some "a" } (by decide) (by decide) (by decide) (by decide)).2.1⟩

/-- **C2** counterexample: the claim's "two records yield the same
fingerprint exactly when their normalized key fields agree" fails. A `|`
inside a key field makes the joined hash string, and hence the digest of
any digest function (here the identity, and equally the real md5, since
the pre-digest strings coincide), collide for records whose normalized
titles differ. -/
theorem fingerprint_separator_collision_cex :
    normalizeField (Job.title { title := some "a|b", company := some "c" }) ≠
      normalizeField (Job.title { title := some "a", company := some "b|c" }) ∧
    hashString { title := some "a|b", company := some "c" } =
      hashString { title := some "a", company := some "b|c" } ∧
    generate_job_hash (fun s => s) { title := some "a|b", company := some "c" } =
      generate_job_hash (fun s => s) { title := some "a", company := some "b|c" } := by
  decide

/-- **C3** (amended). Merging an incoming record whose fingerprint is not
known stamps its `scraped_date` (the creation timestamp the spec calls
`first_seen`) to the current time and its `status` to `active`, appends it
to the corpus, adds its fingerprint to the known set, and increments the
new-record count by one. It does **not** stamp `last_seen`: a freshly
appended record keeps whatever `last_seen` it carried (none for scraped
records), and `last_seen` is first written on re-observation. -/
theorem merge_new_record_stamps_amended (md5 : String → String) (now : String)
    (jobs : List Job) (hashes : List String) (count : Nat) (b : Job)
    (rest : List Job) (hb : generate_job_hash md5 b ∉ hashes) :
    processNew md5 now jobs hashes count (b :: rest) =
      processNew md5 now (jobs ++ [stampNew md5 now b])
        (generate_job_hash md5 b :: hashes) (count + 1) rest ∧
    (stampNew md5 now b).scraped_date = some now ∧
    (stampNew md5 now b).status = some "active" ∧
    (stampNew md5 now b).id = some (generate_job_hash md5 b) ∧
    (stampNew md5 now b).last_seen = b.last_seen ∧
    (stampNew md5 now b).title = b.title ∧
    (stampNew md5 now b).description = b.description := by
  refine ⟨?_, rfl, rfl, rfl, rfl, rfl, rfl⟩
  simp only [processNew]
  rw [if_neg hb]
  rfl

/-- **C3** witness: merging a single new record at time `"T"`. -/
theorem merge_new_record_stamps_witness :
    generate_job_hash (fun s => s) { title := some "a" } ∉ ([] : List String) ∧
    processNew (fun s => s) "T" [] [] 0 [({ title := some "a" } : Job)] =
      processNew (fun s => s) "T" [stampNew (fun s => s) "T" { title := some "a" }]
        [generate_job_hash (fun s => s) { title := some "a" }] 1 [] :=
  ⟨by decide,
    (merge_new_record_stamps_amended (fun s => s) "T" [] [] 0
      { title := some "a" } [] (by decide)).1⟩

/-- **C3** counterexample: the claim says a new record's `first_seen` and
`last_seen` are stamped to the current time; the code stamps only
`scraped_date` (and `status`), and the appended record's `last_seen`
remains absent. -/
theorem merge_new_record_last_seen_cex :
    (deduplicate_jobs (fun s => s) "T0" [] [{ title := some "a" }]).1 =
      [{ id := some "a|||", title := some "a", scraped_date := some "T0",
         status := some "active" }] ∧
    ((deduplicate_jobs (fun s => s) "T0" [] [{ title := some "a" }]).1.map
      (fun j => j.last_seen)) = [none] := by
  decide

/-- **C4**. A re-observation (incoming record whose fingerprint matches the
stored id of a corpus record) updates the first matching record only:
`last_seen` is always refreshed, each of `description`, `posted_date`,
`salary`, `employment_type` is overwritten exactly when the incoming record
carries a truthy (present, non-empty) value for it, and every other field —
in particular the identity fields title/company/location/url — is left
unchanged. -/
theorem reobservation_frame_ok (md5 : String → String) (t : String) (b j : Job)
    (pre post : List Job)
    (hpre : ∀ k ∈ pre, k.id ≠ some (generate_job_hash md5 b))
    (hj : j.id = some (generate_job_hash md5 b)) :
    update_existing_job t (generate_job_hash md5 b) b (pre ++ j :: post) =
      pre ++ applyUpdate t b j :: post ∧
    (applyUpdate t b j).last_seen = some t ∧
    (applyUpdate t b j).title = j.title ∧
    (applyUpdate t b j).company = j.company ∧
    (applyUpdate t b j).location = j.location ∧
    (applyUpdate t b j).url = j.url ∧
    (applyUpdate t b j).id = j.id ∧
    (applyUpdate t b j).scraped_date = j.scraped_date ∧
    (applyUpdate t b j).status = j.status ∧
    (applyUpdate t b j).jobId = j.jobId ∧
    (applyUpdate t b j).level = j.level ∧
    (applyUpdate t b j).jobDescription = j.jobDescription ∧
    (applyUpdate t b j).source = j.source ∧
    (applyUpdate t b j).description =
      (if truthy b.description then b.description else j.description) ∧
    (applyUpdate t b j).posted_date =
      (if truthy b.posted_date then b.posted_date else j.posted_date) ∧
    (applyUpdate t b j).salary =
      (if truthy b.salary then b.salary else j.salary) ∧
    (applyUpdate t b j).employment_type =
      (if truthy b.employment_type then b.employment_type else j.employment_type) :=
  ⟨update_existing_job_split t (generate_job_hash md5 b) b j pre post hpre hj,
    rfl, rfl, rfl, rfl, rfl, rfl, rfl, rfl, rfl, rfl, rfl, rfl, rfl, rfl, rfl, rfl⟩

/-- **C4** witness: a re-observation carrying a new non-empty description
updates the stored record in place. -/
theorem reobservation_frame_witness :
    (({ id := some "a|||", title := some "a", description := some "old" } : Job).id =
      some (generate_job_hash (fun s => s)
        { title := some "a", description := some "new" })) ∧
    update_existing_job "T1"
        (generate_job_hash (fun s => s) { title := some "a", description := some "new" })
        { title := some "a", description := some "new" }
        ([] ++ ({ id := some "a|||", title := some "a", description := some "old" } : Job)
          :: []) =
      [] ++ applyUpdate "T1" { title := some "a", description := some "new" }
        { id := some "a|||", title := some "a", description := some "old" } :: [] :=
  ⟨by decide,
    (reobservation_frame_ok (fun s => s) "T1"
      { title := some "a", description := some "new" }
      { id := some "a|||", title := some "a", description := some "old" } [] []
      (fun k hk => by simp at hk) (by decide)).1⟩

/-- **C7**. The merge is a total function of its inputs (the embedding is a
pure Lean function, so no input can raise; the `try/except` fallback of
deduplication.py lines 82-84 is unreachable in the pure model). A record
with every key field missing still receives the fingerprint of empty key
fields — the digest of `"|||"` — and is merged like any other record. -/
theorem merge_total_empty_fingerprint_ok (md5 : String → String) (now : String) :
    hashString {} = "|||" ∧
    generate_job_hash md5 {} = md5 "|||" ∧
    deduplicate_jobs md5 now [] [{}] =
      ([{ id := some (md5 "|||"), scraped_date := some now,
          status := some "active" }], 1) := by
  refine ⟨rfl, rfl, ?_⟩
  unfold deduplicate_jobs
  simp only [List.map_nil, List.filterMap_nil, processNew]
  rw [if_neg (by simp)]
  rfl

/-- **C1** (amended). If every corpus record's stored `id`, when truthy,
equals that record's fingerprint (which holds for everything the merge
itself ever writes) and corpus fingerprints are pairwise distinct, then the
merged corpus again has pairwise distinct fingerprints: an incoming record
whose fingerprint equals that of a corpus record, or of an already-appended
batch record, is never appended a second time. (Without the id hypothesis
the invariant fails, because the known-set is built from stored ids; see
the counterexample.) -/
theorem merge_dedup_invariant_amended (md5 : String → String) (now : String)
    (C B : List Job)
    (hid : ∀ j ∈ C, truthy j.id = true → j.id = some (generate_job_hash md5 j))
    (hnodup : (C.map (generate_job_hash md5)).Nodup) :
    (((deduplicate_jobs md5 now C B).1).map (generate_job_hash md5)).Nodup := by
  have hout : (deduplicate_jobs md5 now C B).1 =
      corePart md5 now B [] (C.map (ensureId md5)) ++
        newPart md5 now ((C.map (ensureId md5)).filterMap (fun j => j.id)) B := by
    rw [deduplicate_jobs_eq]
    rfl
  rw [hout, List.map_append]
  have hcore : (corePart md5 now B [] (C.map (ensureId md5))).map
      (generate_job_hash md5) = C.map (generate_job_hash md5) := by
    rw [corePart_map_gjh, List.map_map]
    exact List.map_congr_left fun j _ => gjh_ensureId md5 j
  have hnew : (newPart md5 now ((C.map (ensureId md5)).filterMap (fun j => j.id)) B).map
      (generate_job_hash md5) =
      (freshList md5 ((C.map (ensureId md5)).filterMap (fun j => j.id)) B).map
        (generate_job_hash md5) := by
    unfold newPart
    rw [List.map_map]
    refine List.map_congr_left fun b0 _ => ?_
    show generate_job_hash md5 (applyTargeted now (stampNew md5 now b0) _) = _
    rw [gjh_applyTargeted, gjh_stampNew]
  rw [hcore, hnew]
  apply List.Nodup.append hnodup
    (freshList_hashes_nodup md5 ((C.map (ensureId md5)).filterMap (fun j => j.id)) B)
  intro a ha hb
  rcases List.mem_map.mp hb with ⟨b0, hb0, hb0e⟩
  apply freshList_mem_not_mem md5 _ B b0 hb0
  rw [ids_of_ensure md5 C hid, hb0e]
  exact ha

/-- **C1** witness: a batch containing the same posting twice is appended
only once. -/
theorem merge_dedup_invariant_witness :
    (([{ title := some "c" }] : List Job).map (generate_job_hash (fun s => s))).Nodup ∧
    (((deduplicate_jobs (fun s => s) "T" [{ title := some "c" }]
        [{ title := some "a" }, { title := some "a" }]).1).map
      (generate_job_hash (fun s => s))).Nodup :=
  ⟨by decide,
    merge_dedup_invariant_amended (fun s => s) "T" [{ title := some "c" }]
      [{ title := some "a" }, { title := some "a" }] (by decide) (by decide)⟩

/-- **C1** counterexample: the claim as stated (unique corpus fingerprints
alone suffice) is false. A corpus record carrying a stale truthy id `"x"`
(≠ its fingerprint — the real md5 hex digest of `"a|||"` is 32 hex
characters, never `"x"`) lets an incoming record with the very same
fingerprint be appended, so the merged corpus holds two records with one
fingerprint. -/
theorem merge_dedup_invariant_cex :
    (([{ id := some "x", title := some "a" }] : List Job).map
      (generate_job_hash (fun s => s))).Nodup ∧
    ((deduplicate_jobs (fun s => s) "T0" [{ id := some "x", title := some "a" }]
        [{ title := some "a" }]).1.map (generate_job_hash (fun s => s)))
      = ["a|||", "a|||"] ∧
    ¬ (((deduplicate_jobs (fun s => s) "T0" [{ id := some "x", title := some "a" }]
        [{ title := some "a" }]).1.map (generate_job_hash (fun s => s)))).Nodup := by
  decide

/-- **C5**. The merged corpus keeps the original records (their identity
fields) in their original positions, appends exactly the genuinely new
batch records — a sublist of the batch, in batch order — after them, and
the new-record count is the length difference `len(merged) - len(C)`
computed by `main.py` lines 134-136. -/
theorem merge_order_monotonicity_ok (md5 : String → String) (now : String)
    (C B : List Job) :
    (deduplicate_jobs md5 now C B).1.length =
      C.length + (deduplicate_jobs md5 now C B).2 ∧
    C.length ≤ (deduplicate_jobs md5 now C B).1.length ∧
    (deduplicate_jobs md5 now C B).2 =
      (deduplicate_jobs md5 now C B).1.length - C.length ∧
    ((deduplicate_jobs md5 now C B).1.take C.length).map idQuad = C.map idQuad ∧
    ((deduplicate_jobs md5 now C B).1.drop C.length).map idQuad =
      (freshList md5 ((C.map (ensureId md5)).filterMap (fun j => j.id)) B).map idQuad ∧
    (freshList md5 ((C.map (ensureId md5)).filterMap (fun j => j.id)) B).Sublist B := by
  have hout : (deduplicate_jobs md5 now C B).1 =
      corePart md5 now B [] (C.map (ensureId md5)) ++
        newPart md5 now ((C.map (ensureId md5)).filterMap (fun j => j.id)) B := by
    rw [deduplicate_jobs_eq]
    rfl
  have hcnt : (deduplicate_jobs md5 now C B).2 =
      (freshList md5 ((C.map (ensureId md5)).filterMap (fun j => j.id)) B).length := by
    rw [deduplicate_jobs_eq]
  have hcorelen : (corePart md5 now B [] (C.map (ensureId md5))).length = C.length := by
    rw [corePart_length, List.length_map]
  have hnewlen : (newPart md5 now ((C.map (ensureId md5)).filterMap (fun j => j.id)) B).length =
      (freshList md5 ((C.map (ensureId md5)).filterMap (fun j => j.id)) B).length := by
    unfold newPart
    rw [List.length_map]
  have hlen : (deduplicate_jobs md5 now C B).1.length =
      C.length + (deduplicate_jobs md5 now C B).2 := by
    rw [hout, List.length_append, hcorelen, hnewlen, hcnt]
  refine ⟨hlen, by omega, by omega, ?_, ?_, ?_⟩
  · rw [hout, List.take_left' hcorelen, corePart_map_idQuad, List.map_map]
    exact List.map_congr_left fun j _ => idQuad_ensureId md5 j
  · rw [hout, List.drop_left' hcorelen]
    unfold newPart
    rw [List.map_map]
    refine List.map_congr_left fun b0 _ => ?_
    show idQuad (applyTargeted now (stampNew md5 now b0) _) = _
    rw [applyTargeted_idQuad, idQuad_stampNew]
  · exact freshList_sublist md5 _ B

/-- **C6**. Merging the same batch a second time into the already-merged
corpus appends nothing (`newCount = 0`), removes nothing, and changes no
field of any record other than `last_seen`. -/
theorem merge_idempotent_ok (md5 : String → String) (t1 t2 : String)
    (C B : List Job) :
    (deduplicate_jobs md5 t2 (deduplicate_jobs md5 t1 C B).1 B).2 = 0 ∧
    (deduplicate_jobs md5 t2 (deduplicate_jobs md5 t1 C B).1 B).1.length =
      (deduplicate_jobs md5 t1 C B).1.length ∧
    ((deduplicate_jobs md5 t2 (deduplicate_jobs md5 t1 C B).1 B).1).map clearLastSeen =
      ((deduplicate_jobs md5 t1 C B).1).map clearLastSeen := by
  refine ⟨by rw [second_merge_eq], ?_, ?_⟩
  · rw [second_merge_eq]
    exact corePart_length md5 t2 B [] _
  · rw [second_merge_eq]
    exact corePart_out1_replay md5 t1 t2 C B

/-! ## Detail-extractor claims -/

theorem collectParagraphs_eq (l : List Elem) :
    collectParagraphs l =
      (((l.takeWhile (fun e => e.tag != "H3")).filter
        (fun e => e.tag == "P")).map (fun e => pyStrip e.text)) := by
  induction l with
  | nil => rfl
  | cons e rest ih =>
      unfold collectParagraphs
      rw [List.takeWhile_cons]
      by_cases h3 : e.tag = "H3"
      · simp [h3]
      · by_cases hp : e.tag = "P"
        · simp [h3, hp, ih, List.filter_cons]
        · simp [h3, hp, ih, List.filter_cons]

theorem litP (x : String) :
    "\n\n" ++ ("Preferred qualifications:\n" ++ x) =
      "\n\nPreferred qualifications:\n" ++ x := by
  rw [← String.append_assoc, show "\n\n" ++ "Preferred qualifications:\n" =
    "\n\nPreferred qualifications:\n" by decide]

theorem litA (x : String) :
    "\n\n" ++ ("About the job:\n" ++ x) = "\n\nAbout the job:\n" ++ x := by
  rw [← String.append_assoc, show "\n\n" ++ "About the job:\n" =
    "\n\nAbout the job:\n" by decide]

theorem litR (x : String) :
    "\n\n" ++ ("Responsibilities:\n" ++ x) = "\n\nResponsibilities:\n" ++ x := by
  rw [← String.append_assoc, show "\n\n" ++ "Responsibilities:\n" =
    "\n\nResponsibilities:\n" by decide]

/-- The sectioned description as blocks: the non-empty sections are kept in
the fixed label order, each prefixed by its label, and joined with a blank
line between consecutive sections (plus a trailing newline whenever the
last section, Responsibilities, is absent but some section is present —
the code appends an empty part after each of the first three sections). -/
theorem description_blocks (d : List Elem) :
    extract_job_description d =
      String.intercalate "\n\n"
        ((if extract_section_content "Minimum qualifications" d ≠ "" then
            ["Minimum qualifications:\n" ++
              extract_section_content "Minimum qualifications" d]
          else []) ++
         (if extract_section_content "Preferred qualifications" d ≠ "" then
            ["Preferred qualifications:\n" ++
              extract_section_content "Preferred qualifications" d]
          else []) ++
         (if extract_paragraph_content "About the job" d ≠ "" then
            ["About the job:\n" ++ extract_paragraph_content "About the job" d]
          else []) ++
         (if extract_section_content "Responsibilities" d ≠ "" then
            ["Responsibilities:\n" ++ extract_section_content "Responsibilities" d]
          else [])) ++
      (if extract_section_content "Responsibilities" d ≠ "" ∨
          (extract_section_content "Minimum qualifications" d = "" ∧
           extract_section_content "Preferred qualifications" d = "" ∧
           extract_paragraph_content "About the job" d = "") then "" else "\n") := by
  simp only [extract_job_description]
  by_cases hm : extract_section_content "Minimum qualifications" d = "" <;>
    by_cases hp : extract_section_content "Preferred qualifications" d = "" <;>
      by_cases ha : extract_paragraph_content "About the job" d = "" <;>
        by_cases hr : extract_section_content "Responsibilities" d = "" <;>
          simp [hm, hp, ha, hr, String.intercalate, String.intercalate.go,
            String.append_assoc, litP, litA, litR]

/-- Modelled from the spec for comparison: the uniform section rule the
spec describes — list items when the heading's immediate sibling is a list
container, **else** the paragraph siblings up to the next heading. The
code's `_extract_section_content` has no such paragraph branch. -/
def sectionContentSpec (label : String) (doc : List Elem) : String :=
  match findHeading label doc with
  | none => ""
  | some rest =>
      match rest with
      | [] => ""
      | sib :: _ =>
          if sib.tag == "UL" then String.intercalate "\n" (sib.liTexts.map pyStrip)
          else String.intercalate "\n\n" (collectParagraphs rest)

/-- **C8** (amended). For the labels handled by `_extract_section_content`
(Minimum qualifications, Preferred qualifications, Responsibilities) only
the list branch exists: when the first matching heading's immediate sibling
is a `UL` its item texts are collected in order, and **otherwise the
section is omitted** (no paragraph fallback); paragraphs-up-to-the-next-
heading are collected only for "About the job" via
`_extract_paragraph_content`. Missing sections are omitted, and the present
sections are concatenated in the fixed label order, each prefixed with its
label and separated by blank lines (with a trailing newline when
Responsibilities is absent). -/
theorem description_sections_amended (label : String) (doc : List Elem)
    (sib : Elem) (tl : List Elem)
    (hfind : findHeading label doc = some (sib :: tl)) :
    (sib.tag ≠ "UL" → extract_section_content label doc = "") ∧
    (sib.tag = "UL" → extract_section_content label doc =
      String.intercalate "\n" (sib.liTexts.map pyStrip)) ∧
    extract_paragraph_content label doc =
      String.intercalate "\n\n"
        ((((sib :: tl).takeWhile (fun e => e.tag != "H3")).filter
          (fun e => e.tag == "P")).map (fun e => pyStrip e.text)) ∧
    (∀ d : List Elem, extract_job_description d =
      String.intercalate "\n\n"
        ((if extract_section_content "Minimum qualifications" d ≠ "" then
            ["Minimum qualifications:\n" ++
              extract_section_content "Minimum qualifications" d]
          else []) ++
         (if extract_section_content "Preferred qualifications" d ≠ "" then
            ["Preferred qualifications:\n" ++
              extract_section_content "Preferred qualifications" d]
          else []) ++
         (if extract_paragraph_content "About the job" d ≠ "" then
            ["About the job:\n" ++ extract_paragraph_content "About the job" d]
          else []) ++
         (if extract_section_content "Responsibilities" d ≠ "" then
            ["Responsibilities:\n" ++ extract_section_content "Responsibilities" d]
          else [])) ++
      (if extract_section_content "Responsibilities" d ≠ "" ∨
          (extract_section_content "Minimum qualifications" d = "" ∧
           extract_section_content "Preferred qualifications" d = "" ∧
           extract_paragraph_content "About the job" d = "") then "" else "\n")) := by
  refine ⟨?_, ?_, ?_, description_blocks⟩
  · intro hne
    unfold extract_section_content
    rw [hfind]
    simp [hne]
  · intro hul
    unfold extract_section_content
    rw [hfind]
    simp [hul]
  · unfold extract_paragraph_content
    rw [hfind]
    show String.intercalate "\n\n" (collectParagraphs (sib :: tl)) = _
    rw [collectParagraphs_eq]

/-- **C8** witness: a Responsibilities heading followed by a `UL` yields
the item texts, and the whole description carries the label prefix. -/
theorem description_sections_witness :
    findHeading "Responsibilities"
      [⟨"H3", "Responsibilities", []⟩, ⟨"UL", "", ["Build stuff", "Ship it"]⟩] =
      some [⟨"UL", "", ["Build stuff", "Ship it"]⟩] ∧
    extract_section_content "Responsibilities"
      [⟨"H3", "Responsibilities", []⟩, ⟨"UL", "", ["Build stuff", "Ship it"]⟩] =
      String.intercalate "\n"
        ((["Build stuff", "Ship it"] : List String).map pyStrip) :=
  ⟨by decide,
    (description_sections_amended "Responsibilities"
      [⟨"H3", "Responsibilities", []⟩, ⟨"UL", "", ["Build stuff", "Ship it"]⟩]
      ⟨"UL", "", ["Build stuff", "Ship it"]⟩ [] (by decide)).2.1 rfl⟩

/-- **C8** counterexample: a "Minimum qualifications" heading followed by
paragraph siblings (no `UL`). The claim's uniform rule would collect the
paragraph text (as the spec-worded `sectionContentSpec` does); the code
omits the section entirely and the whole description is empty. -/
theorem description_paragraph_fallback_cex :
    extract_section_content "Minimum qualifications"
      [⟨"H3", "Minimum qualifications", []⟩, ⟨"P", "Requires a degree", []⟩] = "" ∧
    sectionContentSpec "Minimum qualifications"
      [⟨"H3", "Minimum qualifications", []⟩, ⟨"P", "Requires a degree", []⟩] =
      "Requires a degree" ∧
    extract_section_content "Minimum qualifications"
        [⟨"H3", "Minimum qualifications", []⟩, ⟨"P", "Requires a degree", []⟩] ≠
      sectionContentSpec "Minimum qualifications"
        [⟨"H3", "Minimum qualifications", []⟩, ⟨"P", "Requires a degree", []⟩] ∧
    extract_job_description
      [⟨"H3", "Minimum qualifications", []⟩, ⟨"P", "Requires a degree", []⟩] = "" := by
  decide

/-! ## Pagination and extractor-merge claims -/

theorem runPages_length_le (hasNext : Nat → Bool) (maxPages : Nat) :
    ∀ fuel page, (runPages hasNext maxPages fuel page).length ≤ maxPages + 1 - page := by
  intro fuel
  induction fuel with
  | zero => intro page; simp [runPages]
  | succ f ih =>
      intro page
      unfold runPages
      by_cases hpage : page ≤ maxPages
      · rw [if_pos hpage]
        by_cases hn : hasNext page = true
        · rw [if_pos hn]
          have := ih (page + 1)
          simp only [List.length_cons]
          omega
        · rw [if_neg hn]
          simp only [List.length_cons, List.length_nil]
          omega
      · rw [if_neg hpage]
        simp

theorem runPages_fuel_stable (hasNext : Nat → Bool) (maxPages : Nat) :
    ∀ fuel1 fuel2 page, maxPages + 1 - page ≤ fuel1 → maxPages + 1 - page ≤ fuel2 →
      runPages hasNext maxPages fuel1 page = runPages hasNext maxPages fuel2 page := by
  intro fuel1
  induction fuel1 with
  | zero =>
      intro fuel2 page h1 h2
      have hpage : ¬ page ≤ maxPages := by omega
      cases fuel2 with
      | zero => rfl
      | succ f2 =>
          unfold runPages
          rw [if_neg hpage]
  | succ f1 ih =>
      intro fuel2 page h1 h2
      cases fuel2 with
      | zero =>
          have hpage : ¬ page ≤ maxPages := by omega
          unfold runPages
          rw [if_neg hpage]
      | succ f2 =>
          unfold runPages
          by_cases hpage : page ≤ maxPages
          · rw [if_pos hpage, if_pos hpage]
            by_cases hn : hasNext page = true
            · rw [if_pos hn, if_pos hn, ih f2 (page + 1) (by omega) (by omega)]
            · rw [if_neg hn, if_neg hn]
          · rw [if_neg hpage, if_neg hpage]

theorem runPages_all_next_length (maxPages : Nat) :
    ∀ fuel page, page ≤ maxPages + 1 → maxPages + 1 - page ≤ fuel →
      (runPages (fun _ => true) maxPages fuel page).length = maxPages + 1 - page := by
  intro fuel
  induction fuel with
  | zero =>
      intro page h1 h2
      simp only [runPages, List.length_nil]
      omega
  | succ f ih =>
      intro page h1 h2
      unfold runPages
      by_cases hpage : page ≤ maxPages
      · rw [if_pos hpage, if_pos rfl]
        have := ih (page + 1) (by omega) (by omega)
        simp only [List.length_cons, this]
        omega
      · rw [if_neg hpage]
        simp only [List.length_nil]
        omega

/-- **C9**. The `while page_number <= max_pages` loop of
`_start_multi_page_scraping` terminates within `max_pages` iterations for
every next-page behaviour: its result is already stable at fuel
`max_pages + 1 - page` (so the loop never runs longer), the number of pages
scraped from the starting page 1 is at most `max_pages` (the code fixes
`max_pages = 5`), a page without a "next" affordance (`_goto_next_page`
returning `False`, which is also what its `try/except` yields on failure)
ends the loop normally as a single final iteration, and even a perpetually
present "next" affordance yields exactly `max_pages` iterations. -/
theorem pagination_terminates_ok (hasNext : Nat → Bool)
    (maxPages fuel k page : Nat) :
    (runPages hasNext maxPages fuel page).length ≤ maxPages + 1 - page ∧
    (runPages hasNext maxPages fuel 1).length ≤ maxPages ∧
    (runPages hasNext 5 fuel 1).length ≤ 5 ∧
    runPages hasNext maxPages (maxPages + 1 - page + k) page =
      runPages hasNext maxPages (maxPages + 1 - page) page ∧
    runPages (fun _ => false) maxPages (fuel + 1) page =
      (if page ≤ maxPages then [page] else []) ∧
    (runPages (fun _ => true) maxPages (maxPages + k) 1).length = maxPages := by
  refine ⟨runPages_length_le hasNext maxPages fuel page,
    le_trans (runPages_length_le hasNext maxPages fuel 1) (by omega),
    le_trans (runPages_length_le hasNext 5 fuel 1) (by omega),
    runPages_fuel_stable hasNext maxPages _ _ page (by omega) (by omega),
    ?_, ?_⟩
  · unfold runPages
    by_cases hpage : page ≤ maxPages
    · rw [if_pos hpage, if_pos hpage]
      simp
    · rw [if_neg hpage, if_neg hpage]
  · cases maxPages with
    | zero =>
        cases k with
        | zero => rfl
        | succ k1 =>
            unfold runPages
            rw [if_neg (by omega)]
            rfl
    | succ m =>
        have := runPages_all_next_length (m + 1) (m + 1 + k) 1 (by omega) (by omega)
        rw [this]
        omega

/-- **C10**. Every record the Google detail extractor emits stores its
description text under the `jobDescription` key and its employer under
`company` (always `"Google"`), and carries no `description`, `posted_date`,
`salary` or `employment_type` keys at all. Since the merge's allow-list
updates only those four keys, re-observing an extractor-emitted record
leaves the stored record entirely unchanged except for the `last_seen`
refresh — in particular its stored description text is never modified. -/
theorem extractor_description_immutable_ok (now t : String) (pg : DetailPage)
    (j : Job) :
    (extract_job_data now pg).jobDescription =
      some (extract_job_description pg.sections) ∧
    (extract_job_data now pg).company = some "Google" ∧
    (extract_job_data now pg).description = none ∧
    (extract_job_data now pg).posted_date = none ∧
    (extract_job_data now pg).salary = none ∧
    (extract_job_data now pg).employment_type = none ∧
    applyUpdate t (extract_job_data now pg) j = { j with last_seen := some t } :=
  ⟨rfl, rfl, rfl, rfl, rfl, rfl, rfl⟩
